import Mathlib

/-!
Verification of the PO compiler of `gettext-parser` (`lib/pocompiler.js`).

Strings are modelled as `List Char` (`Str`) so that every operation is a
computable structural recursion.  JavaScript objects whose key order matters
(headers, the two-level `translations` mapping) are modelled as association
lists in enumeration order.  JavaScript `undefined`-or-empty ("falsy") string
fields are modelled with `Option Str` plus explicit falsiness coercions.
The compiler mutates its input table (charset resolution writes back into it);
the embedding makes this explicit by returning the post-call table next to the
produced output.

The helpers `formatCharset`, `foldLine` and `generateHeader` live in the
shared module of the repository, whose source is not part of the audited
tree; they are modelled from the specification (each carries a doc comment
saying so).  Everything else is translated from `lib/pocompiler.js`.
-/

namespace Po

/-- JavaScript strings, modelled as lists of characters. -/
abbrev Str := List Char

/-- Lower-casing of a string, `String.prototype.toLowerCase` on our fragment. -/
def strToLower (s : Str) : Str := s.map Char.toLower

/-- `String.prototype.trim`: drop whitespace from both ends. -/
def strTrim (s : Str) : Str :=
  ((s.dropWhile Char.isWhitespace).reverse.dropWhile Char.isWhitespace).reverse

/-- `String.prototype.split` with a one-character separator.
`split` never returns an empty list: splitting the empty string yields one
empty piece, exactly as in JavaScript. -/
def splitOnChar (sep : Char) : Str → List Str
  | [] => [[]]
  | c :: rest =>
    let r := splitOnChar sep rest
    if c = sep then [] :: r
    else (c :: r.headD []) :: r.tail

/-- Lexicographic strict comparison of strings by character, the order behind
the JavaScript relational operators on strings. -/
def ltb : Str → Str → Bool
  | [], [] => false
  | [], _ :: _ => true
  | _ :: _, [] => false
  | a :: as, b :: bs => if a < b then true else if b < a then false else ltb as bs

/-- JavaScript falsiness on an optional string: `undefined` and the empty
string are falsy, every other string is truthy. -/
def jsTruthy : Option Str → Option Str
  | some s => if s = [] then none else some s
  | none => none

/-- First value bound to a key in an association list (JavaScript property
lookup; object keys are unique, so first match is the match). -/
def lookupA {α : Type} (k : Str) : List (Str × α) → Option α
  | [] => none
  | p :: rest => if p.1 = k then some p.2 else lookupA k rest

/-- JavaScript property assignment `obj[k] = v`: an existing key keeps its
position and gets the new value, a fresh key is appended at the end. -/
def setA (k v : Str) : List (Str × Str) → List (Str × Str)
  | [] => [(k, v)]
  | p :: rest => if p.1 = k then (k, v) :: rest else p :: setA k v rest

/-- The `msgstr` field of an entry: absent, a single string, or an array of
strings (the plural forms). -/
inductive MsgVal where
  | absent
  | str (s : Str)
  | arr (l : List Str)
  deriving DecidableEq, Repr

/-- The `comments` object of an entry, with the five recognized keys of
`_drawComments`; `none` models an absent or falsy field. -/
structure Comments where
  translator : Option Str := none
  reference : Option Str := none
  extracted : Option Str := none
  flag : Option Str := none
  previous : Option Str := none
  deriving DecidableEq, Repr

/-- One translation object, the unit rendered by `_drawBlock`. -/
structure TransEntry where
  comments : Option Comments := none
  msgctxt : Option Str := none
  msgid : Option Str := none
  msgid_plural : Option Str := none
  msgstr : MsgVal := .absent
  deriving DecidableEq, Repr

/-- A value stored under a msgid key of a context: a proper translation
object; the JavaScript `null` (whose `typeof` is the string `object`, so the
guard in `compile` does not skip it — it is pushed into the response and the
later dereference of its properties throws a `TypeError`); or a non-object
primitive (skipped by the `typeof` guard). -/
inductive TransVal where
  | ent (e : TransEntry)
  | jsNull
  | prim
  deriving DecidableEq, Repr

/-- A value stored under a context key of `translations`: an object mapping
msgid keys to values, the JavaScript `null` (whose `typeof` is the string
`object`, so it passes the guard and then makes `Object.keys` throw), or a
non-object primitive. -/
inductive CtxVal where
  | obj (entries : List (Str × TransVal))
  | cnull
  | cprim
  deriving DecidableEq, Repr

/-- A translation table as handed to `module.exports`; every field may be
absent (`table || {}`, `headers || {}`, `translations || {}` in the
constructor). -/
structure TableIn where
  charset : Option Str := none
  headers : Option (List (Str × Str)) := none
  translations : Option (List (Str × CtxVal)) := none
  deriving DecidableEq, Repr

/-- The table after the constructor has filled in the default empty objects.
The compiler writes its resolved charset and rewritten content-type header
back into this structure. -/
structure Table where
  charset : Option Str
  headers : List (Str × Str)
  translations : List (Str × CtxVal)
  deriving DecidableEq, Repr

/-- The `sort` option: the literal `false`, a truthy non-function value, or a
comparator function. -/
inductive SortOpt where
  | off
  | on
  | fn (f : TransEntry → TransEntry → Int)

/-- The options object: a field is `none` when the key is not present, in
which case the constructor installs the default (`foldLength = 76`,
`sort = false`). -/
structure OptionsIn where
  foldLength : Option Int := none
  sort : Option SortOpt := none

/-- Modelled from the spec: the charset-name normalization of the shared
module (`normalizeCharsetName`, called `formatCharset` in the source) is not
under the audited tree.  Per the spec it lower-cases the name and maps known
aliases (for example `utf8` becomes `utf-8`), returning the input unchanged
when unrecognized, and it never fails. -/
def normalizeCharsetName (s : Str) : Str :=
  let l := strToLower s
  if l = "utf8".data then "utf-8".data
  else if l = "usascii".data then "ascii".data
  else l

/-- Modelled from the spec: `formatCharset` lifted to possibly-absent input as
used by `_handleCharset`.  A missing or empty charset has no normal form and
stays falsy; a non-empty one is normalized by `normalizeCharsetName`. -/
def formatCharset : Option Str → Option Str
  | none => none
  | some s => if s = [] then none else some (normalizeCharsetName s)

/-- Modelled from the spec: the preferential whitespace break of `foldLine`.
The candidate cut position within the current chunk is just after the last
whitespace character of the chunk, or the full chunk width when the chunk has
no whitespace. -/
def lastSpaceCut (w : Nat) (chunk : Str) : Nat :=
  match ((chunk.enum.filter fun p => p.2.isWhitespace).map Prod.fst).getLast? with
  | some i => i + 1
  | none => w

/-- Modelled from the spec: the escape-sequence guard of `foldLine` — a cut
that would split a two-character escape sequence (a backslash lead that is
not itself escaped) is moved back by one. -/
def escGuard (l : Str) (cut : Nat) : Nat :=
  if 2 ≤ cut ∧ l.get? (cut - 1) = some '\\' ∧ l.get? (cut - 2) ≠ some '\\'
  then cut - 1 else cut

/-- Modelled from the spec: `foldLine(text, maxWidth)` of the shared module is
not under the audited tree.  Per the spec it splits `text` into pieces no
longer than `maxWidth`, breaking preferentially at a whitespace boundary and
not splitting a two-character escape sequence across pieces; the pieces
concatenate back to `text`, and the function is deterministic.  This is the
length of the first piece taken from `l` (a text that fits in `maxWidth` is a
single piece; progress by at least one character is always made). -/
def pieceLen (w : Nat) (l : Str) : Nat :=
  if l.length ≤ w then l.length
  else max 1 (escGuard l (lastSpaceCut w (l.take w)))

/-- Modelled from the spec: the recursive piece-splitting loop of `foldLine`,
written with an explicit fuel so that it is a structural recursion.  An empty
text yields no pieces; otherwise the first `pieceLen` characters form a piece
and the rest is folded recursively.  Each step consumes at least one
character, so fuel at least the length of the text never runs out. -/
def foldLineGo (w : Nat) : Nat → Str → List Str
  | _, [] => []
  | 0, l => [l]
  | fuel + 1, l => l.take (pieceLen w l) :: foldLineGo w fuel (l.drop (pieceLen w l))

/-- Modelled from the spec: the piece list of `foldLine` on non-disabled
folding, run with sufficient fuel. -/
def foldLineChars (w : Nat) (l : Str) : List Str := foldLineGo w l.length l

/-- Modelled from the spec: `foldLine` on a text, with folding disabled
(`maxWidth ≤ 0` returns the text as a single piece). -/
def foldLine (text : Str) (maxWidth : Int) : List Str :=
  if maxWidth ≤ 0 then [text] else foldLineChars maxWidth.toNat text

/-- Modelled from the spec: `generateHeaderBlock` (called `generateHeader` in
the source) of the shared module is not under the audited tree.  Per the spec
it renders the header mapping as the newline-joined `key: value` pairs,
preserving the iteration order of the mapping. -/
def generateHeader (headers : List (Str × Str)) : Str :=
  List.intercalate "\n".data (headers.map fun p => p.1 ++ ": ".data ++ p.2)

/-- Character-wise escaping of `_addPOString`: the source applies five global
replacements in sequence (backslash, double quote, tab, carriage return,
newline); since the replacements introduce no character that a later pass
rewrites except the backslashes they themselves produced, the sequence is the
character-wise map below. -/
def escapeChar (c : Char) : Str :=
  if c = '\\' then "\\\\".data
  else if c = '"' then "\\\"".data
  else if c = '\t' then "\\t".data
  else if c = '\r' then "\\r".data
  else if c = '\n' then "\\n".data
  else [c]

/-- Escaping of a whole string value, per `_addPOString`.  The theorem
`escapeString_eq_seq` proves this equal to the literal sequence of global
replacements of the source. -/
def escapeString (s : Str) : Str := (s.map escapeChar).flatten

/-- One global single-character replacement,
`String.prototype.replace(/<c>/g, rep)`. -/
def replaceChar (c : Char) (rep : Str) (s : Str) : Str :=
  (s.map fun x => if x = c then rep else [x]).flatten

/-- The five global replacements of `_addPOString` applied in source order:
backslash, double quote, tab, carriage return, newline. -/
def escapeStringSeq (s : Str) : Str :=
  replaceChar '\n' "\\n".data
    (replaceChar '\r' "\\r".data
      (replaceChar '\t' "\\t".data
        (replaceChar '"' "\\\"".data
          (replaceChar '\\' "\\\\".data s))))

/-- `Compiler.prototype._addPOString`: escape the value, fold it when a
positive fold length is configured, and render either the single line
`key "value"` or the folded form `key ""` followed by one quoted line per
piece. -/
def addPOString (foldLength : Int) (key : Str) (value : Str) : Str :=
  let value := escapeString value
  let lines := if foldLength > 0 then foldLine value foldLength else [value]
  if lines.length < 2 then
    key ++ " \"".data ++ lines.headD [] ++ "\"".data
  else
    key ++ " \"\"\n\"".data ++ List.intercalate "\"\n\"".data lines ++ "\"".data

/-- The newline splitter of `_drawComments`, the regular expression
`\r?\n|\r` scanned left to right: a CRLF pair is one separator, a lone LF or
lone CR is a separator. -/
def splitNewlines : Str → List Str
  | [] => [[]]
  | '\r' :: '\n' :: rest => [] :: splitNewlines rest
  | '\n' :: rest => [] :: splitNewlines rest
  | '\r' :: rest => [] :: splitNewlines rest
  | c :: rest =>
    let r := splitNewlines rest
    (c :: r.headD []) :: r.tail

/-- One comment type of `_drawComments`: a falsy field contributes nothing, a
non-empty one contributes one prefixed line per physical line. -/
def commentLines (pfx : Str) (v : Option Str) : List Str :=
  match jsTruthy v with
  | none => []
  | some s => (splitNewlines s).map (fun line => pfx ++ line)

/-- `Compiler.prototype._drawComments`: the five comment types in the order of
the `types` array, joined by newlines. -/
def drawComments (c : Comments) : Str :=
  List.intercalate "\n".data
    (commentLines "# ".data c.translator ++
     commentLines "#: ".data c.reference ++
     commentLines "#. ".data c.extracted ++
     commentLines "#, ".data c.flag ++
     commentLines "#| ".data c.previous)

/-- The `[].concat(override.msgstr || block.msgstr)` normalization of
`_drawBlock`.  The compiler only ever overrides `msgstr` (for the header
block), so the override is that single optional field; an empty override
string is falsy and falls back to the block.  `concat` wraps a non-array in a
one-element array — in particular an absent `msgstr` becomes the one-element
array holding `undefined`, which renders as the empty string. -/
def msgstrList (override : Option Str) (blockMsgstr : MsgVal) : List Str :=
  let mv : MsgVal :=
    match override with
    | some s => if s = [] then blockMsgstr else .str s
    | none => blockMsgstr
  match mv with
  | .absent => [[]]
  | .str s => [s]
  | .arr l => l

/-- `Compiler.prototype._drawBlock`: comments if any render non-empty, then
`msgctxt` if truthy, then `msgid`, then either `msgid_plural` followed by one
`msgstr[n]` line per element of the normalized `msgstr` array, or a single
`msgstr` line; the parts are joined by newlines. -/
def drawBlock (foldLength : Int) (block : TransEntry) (override : Option Str) : Str :=
  let msgstr := msgstrList override block.msgstr
  let commentsPart : List Str :=
    match block.comments with
    | some c =>
      let s := drawComments c
      if s = [] then [] else [s]
    | none => []
  let ctxtPart : List Str :=
    match jsTruthy block.msgctxt with
    | some s => [addPOString foldLength "msgctxt".data s]
    | none => []
  let msgidPart : List Str := [addPOString foldLength "msgid".data (block.msgid.getD [])]
  let tailPart : List Str :=
    match jsTruthy block.msgid_plural with
    | some p =>
      addPOString foldLength "msgid_plural".data p ::
        msgstr.enum.map fun q =>
          addPOString foldLength ("msgstr[".data ++ (toString q.1).data ++ "]".data) q.2
    | none => [addPOString foldLength "msgstr".data (msgstr.headD [])]
  List.intercalate "\n".data (commentsPart ++ ctxtPart ++ msgidPart ++ tailPart)

/-- The key of one `;`-separated content-type parameter, per the callback of
`_handleCharset`: split on `=`, shift, trim. -/
def paramKey (p : Str) : Str := strTrim ((splitOnChar '=' p).headD [])

/-- The value of one content-type parameter: everything after the first `=`,
re-joined on `=`. -/
def paramValue (p : Str) : Str := List.intercalate "=".data (splitOnChar '=' p).tail

/-- The charset a `charset=` parameter resolves to when no charset is fixed
yet: the normalized trimmed value, falling back to `utf-8` when the trimmed
value is empty (`formatCharset(value.trim() || "utf-8")`). -/
def resolveParamCharset (p : Str) : Str :=
  let v := strTrim (paramValue p)
  normalizeCharsetName (if v = [] then "utf-8".data else v)

/-- The body of the `parts.map` callback of `_handleCharset`, with the
mutable `charset` variable made an explicit accumulator: a `charset`
parameter is rewritten to `charset=<c>` where `<c>` is the already-resolved
charset or, when none is resolved yet, `resolveParamCharset`; any other
parameter passes through unchanged. -/
def charsetStep (acc : Option Str × List Str) (part : Str) : Option Str × List Str :=
  if strToLower (paramKey part) = "charset".data then
    let charset :=
      match acc.1 with
      | some c => c
      | none => resolveParamCharset part
    (some charset, acc.2 ++ ["charset=".data ++ charset])
  else
    (acc.1, acc.2 ++ [part])

/-- The split content-type header of `_handleCharset`:
`(headers["content-type"] || "text/plain").split(";")`. -/
def ctSplit (t : Table) : List Str :=
  let ct :=
    match jsTruthy (lookupA "content-type".data t.headers) with
    | some s => s
    | none => "text/plain".data
  splitOnChar ';' ct

/-- The charset resolution of `_handleCharset`: fold the parameter rewriting
over the parameters with the formatted table charset as the seed; when no
charset came out of either source, fall back to
`this._table.charset || "utf-8"` and append a `charset=` parameter.  Returns
the resolved charset and the final parameter list. -/
def resolveCharset (t : Table) : Str × List Str :=
  match (ctSplit t).tail.foldl charsetStep (formatCharset t.charset, []) with
  | (some c, ps) => (c, ps)
  | (none, ps) =>
    ((jsTruthy t.charset).getD "utf-8".data,
     ps ++ ["charset=".data ++ (jsTruthy t.charset).getD "utf-8".data])

/-- `Compiler.prototype._handleCharset`: resolve the charset, then write the
resolved charset and the re-joined content-type back into the table.  Returns
the updated table together with the resolved charset (the value the source
keeps in `this._charset`). -/
def handleCharset (t : Table) : Table × Str :=
  let r := resolveCharset t
  ({ charset := some r.1,
     headers := setA "content-type".data
       ((ctSplit t).headD [] ++ "; ".data ++ List.intercalate "; ".data r.2) t.headers,
     translations := t.translations },
   r.1)

/-- One step of the inner `Object.keys(...).forEach` of `compile`: a value
whose `typeof` is not `object` is skipped, the `("", "")` key pair is
skipped, every other value — a proper entry or the JavaScript `null`, which
passes the `typeof` guard — is pushed into the response.  A pushed `null` is
the `none` element. -/
def collectCtxStep (msgctxt : Str) (a : List (Option TransEntry)) (q : Str × TransVal) :
    List (Option TransEntry) :=
  match q.2 with
  | .prim => a
  | .ent e => if msgctxt = [] ∧ q.1 = [] then a else a ++ [some e]
  | .jsNull => if msgctxt = [] ∧ q.1 = [] then a else a ++ [none]

/-- The inner `Object.keys(...).forEach` of `compile` for one context, in key
order. -/
def collectCtx (msgctxt : Str) (entries : List (Str × TransVal)) :
    List (Option TransEntry) :=
  entries.foldl (collectCtxStep msgctxt) []

/-- One step of the outer `Object.keys(...).forEach` of `compile`: a context
value whose `typeof` is not `object` is skipped; the JavaScript `null` passes
that guard and `Object.keys(null)` throws a `TypeError`. -/
def collectStep (acc : List (Option TransEntry)) (p : Str × CtxVal) :
    Except Str (List (Option TransEntry)) :=
  match p.2 with
  | .cprim => Except.ok acc
  | .cnull => Except.error "TypeError".data
  | .obj es => Except.ok (acc ++ collectCtx p.1 es)

/-- The outer `Object.keys(...).forEach` of `compile`: the raw response list,
with pushed `null` values still in place. -/
def collectRaw (tr : List (Str × CtxVal)) : Except Str (List (Option TransEntry)) :=
  tr.foldlM collectStep []

/-- The entries the later stages of `compile` actually render.  In the
source, a pushed `null` element is dereferenced after collection in every
run: with sorting enabled the comparator reads `.msgid` of `null`, and in any
case the `response.map` calls `_drawBlock(null)`, which reads `.comments` of
`null`; either access throws a `TypeError`, so a response containing `null`
never produces output.  The embedding surfaces that `TypeError` here, between
collection and sorting, which gives `compilepo` the same result on every
table. -/
def collectEntries (tr : List (Str × CtxVal)) : Except Str (List TransEntry) :=
  match collectRaw tr with
  | .error e => .error e
  | .ok response =>
    if response.any Option.isNone then .error "TypeError".data
    else .ok (response.filterMap id)

/-- The header pseudo-entry lookup of `compile`:
`(translations[""] && translations[""][""]) || {}`.  Any falsy or non-object
intermediate value falls back to the empty object. -/
def headerBlockOf (tr : List (Str × CtxVal)) : TransEntry :=
  match lookupA [] tr with
  | some (.obj es) =>
    match lookupA [] es with
    | some (.ent e) => e
    | _ => {}
  | _ => {}

/-- The JavaScript `>` relational operator on possibly-undefined msgid fields:
two strings compare lexicographically, any comparison involving `undefined`
is false. -/
def jsGT : Option Str → Option Str → Bool
  | some a, some b => ltb b a
  | _, _ => false

/-- The default `compare` comparator of the source:
`r1.msgid > r2.msgid ? 1 : r2.msgid > r1.msgid ? -1 : 0`. -/
def compare (r1 r2 : TransEntry) : Int :=
  if jsGT r1.msgid r2.msgid then 1
  else if jsGT r2.msgid r1.msgid then -1
  else 0

/-- Stable insertion of one element into a comparator-sorted list: the element
goes before the first element it compares strictly below, so ties keep the
original order (`Array.prototype.sort` is stable). -/
def insertCmp (f : TransEntry → TransEntry → Int) (x : TransEntry) :
    List TransEntry → List TransEntry
  | [] => [x]
  | y :: ys => if f x y < 0 then x :: y :: ys else y :: insertCmp f x ys

/-- Stable comparator sort modelling `Array.prototype.sort(f)`. -/
def sortByCmp (f : TransEntry → TransEntry → Int) (l : List TransEntry) :
    List TransEntry :=
  l.foldl (fun acc x => insertCmp f x acc) []

/-- The sorting step of `compile`: `sort !== false` triggers sorting, with the
given function when `typeof sort === "function"` and with `compare`
otherwise. -/
def sortEntries : SortOpt → List TransEntry → List TransEntry
  | .off, l => l
  | .on, l => sortByCmp compare l
  | .fn f, l => sortByCmp f l

/-- The constructor defaulting of the table:
`this._table = table || {}` and the `headers`/`translations` fields default
to empty objects. -/
def initTable : Option TableIn → Table
  | none => ⟨none, [], []⟩
  | some t => ⟨t.charset, t.headers.getD [], t.translations.getD []⟩

/-- The constructor defaulting of the options: a missing `foldLength` key
becomes 76 and a missing `sort` key becomes `false`. -/
def initOptions : Option OptionsIn → Int × SortOpt
  | none => (76, .off)
  | some o => (o.foldLength.getD 76, o.sort.getD .off)

/-- The produced buffer: UTF-8 and ASCII text is emitted as-is, any other
charset is routed through the external `encoding.convert` collaborator. -/
inductive Output where
  | utf8 (text : Str)
  | converted (text : Str) (charset : Str)
  deriving DecidableEq, Repr

/-- The text carried by an output buffer. -/
def Output.text : Output → Str
  | .utf8 s => s
  | .converted s _ => s

/-- Equality of compile results is decidable, so that concrete runs can be
checked by evaluation. -/
instance {ε α : Type} [DecidableEq ε] [DecidableEq α] : DecidableEq (Except ε α) := fun a b =>
  match a, b with
  | .error e, .error f =>
    if h : e = f then .isTrue (congrArg Except.error h)
    else .isFalse (fun hh => h (Except.error.inj hh))
  | .ok x, .ok y =>
    if h : x = y then .isTrue (congrArg Except.ok h)
    else .isFalse (fun hh => h (Except.ok.inj hh))
  | .error _, .ok _ => .isFalse (fun hh => Except.noConfusion hh)
  | .ok _, .error _ => .isFalse (fun hh => Except.noConfusion hh)

/-- `module.exports(table, options)`: construct the compiler (defaulting and
`_handleCharset`) and run `compile`.  The result pairs the produced output
with the post-call table, making the mutation of the caller table explicit;
a `TypeError` thrown on a `null` context value is an `Except.error`. -/
def compilepo (tIn : Option TableIn) (oIn : Option OptionsIn) :
    Except Str (Output × Table) :=
  let t0 := initTable tIn
  let fl := (initOptions oIn).1
  let so := (initOptions oIn).2
  let t := (handleCharset t0).1
  let charset := (handleCharset t0).2
  let headerBlock := headerBlockOf t.translations
  match collectEntries t.translations with
  | .error e => .error e
  | .ok entries =>
    let blocks := (sortEntries so entries).map fun r => drawBlock fl r none
    let response := drawBlock fl headerBlock (some (generateHeader t.headers)) :: blocks
    let text := List.intercalate "\n\n".data response
    let out :=
      if charset = "utf-8".data ∨ charset = "ascii".data
      then Output.utf8 text else Output.converted text charset
    .ok (out, t)

/-- Shortcut instances so that instance search on the data model stays
fast. -/
instance : Nonempty TransEntry := ⟨{}⟩

instance : Nonempty TransVal := ⟨.prim⟩

instance : Nonempty CtxVal := ⟨.cprim⟩

instance : Nonempty (List (Str × TransVal)) := ⟨[]⟩

instance : Nonempty (List (Str × CtxVal)) := ⟨[]⟩

instance : Nonempty (List TransEntry) := ⟨[]⟩

/-! Specification-side definitions.  These restate individual spec sentences
as definitions, to be compared with the behaviour of the translated code. -/

/-- The first parameter among the `;`-separated content-type parameters whose
key is `charset`, if any. -/
def firstCharsetPart : List Str → Option Str
  | [] => none
  | p :: rest =>
    if strToLower (paramKey p) = "charset".data then some p
    else firstCharsetPart rest

/-- The parameter rewriting performed when the charset is already resolved to
`c`: a `charset` parameter becomes `charset=<c>`, anything else is kept. -/
def rewriteParam (c : Str) (p : Str) : Str :=
  if strToLower (paramKey p) = "charset".data then "charset=".data ++ c else p

/-- Spec statement of the charset resolution order: an explicitly set table
charset wins in normalized form; otherwise the first `charset=` parameter of
the existing content-type header wins (normalized, with `utf-8` substituted
for an empty value); otherwise `utf-8`. -/
def charsetResolutionSpec (t : Table) : Str :=
  match formatCharset t.charset with
  | some c => c
  | none =>
    match firstCharsetPart (ctSplit t).tail with
    | some p =>
      let v := strTrim (paramValue p)
      normalizeCharsetName (if v = [] then "utf-8".data else v)
    | none => "utf-8".data

/-- Whether a context value is free of JavaScript `null` entry values (the
values whose dereference after collection throws). -/
def ctxEntryNullFree : CtxVal → Bool
  | .obj es =>
    es.all fun q =>
      match q.2 with
      | .jsNull => false
      | _ => true
  | _ => true

/-- Spec statement of the entry collection for one context: one entry per
key in order, excluding non-objects and the `("", "")` pseudo-entry (the
`jsNull` arm is never reached on null-free tables). -/
def collectSpecCtx (c : Str) (es : List (Str × TransVal)) : List TransEntry :=
  (es.map fun q =>
    match q.2 with
    | .ent e => if c = [] ∧ q.1 = [] then [] else [e]
    | .jsNull => []
    | .prim => []).flatten

/-- Spec statement of the whole entry collection: contexts in order, each
contributing its entries, non-object contexts contributing nothing. -/
def collectSpec (tr : List (Str × CtxVal)) : List TransEntry :=
  (tr.map fun p =>
    match p.2 with
    | .obj es => collectSpecCtx p.1 es
    | _ => []).flatten

/-- The rendered block list of a successful compile: the synthesized header
block (the pseudo-entry with its `msgstr` overridden by the generated header
text) first, then one block per collected, sorted entry. -/
def compiledResponse (tIn : Option TableIn) (oIn : Option OptionsIn)
    (entries : List TransEntry) : List Str :=
  let fl := (initOptions oIn).1
  let t := (handleCharset (initTable tIn)).1
  drawBlock fl (headerBlockOf t.translations) (some (generateHeader t.headers)) ::
    ((sortEntries (initOptions oIn).2 entries).map fun r => drawBlock fl r none)

/-- The comment part of a rendered block: nothing when the comments object is
absent or renders empty, else the rendered comment lines. -/
def commentsPartOf (block : TransEntry) : List Str :=
  match block.comments with
  | some c =>
    let s := drawComments c
    if s = [] then [] else [s]
  | none => []

/-- The `msgctxt` part of a rendered block: one line when the field is
truthy. -/
def ctxtPartOf (foldLength : Int) (block : TransEntry) : List Str :=
  match jsTruthy block.msgctxt with
  | some s => [addPOString foldLength "msgctxt".data s]
  | none => []

/-- Everything of a rendered block up to and including the `msgid` line. -/
def blockHead (foldLength : Int) (block : TransEntry) : List Str :=
  commentsPartOf block ++ ctxtPartOf foldLength block ++
    [addPOString foldLength "msgid".data (block.msgid.getD [])]

/-! Concrete fixtures used by counterexamples and witnesses. -/

/-- A table carrying only an unnormalized charset and no headers. -/
def cexTableC1 : TableIn := { charset := some "UTF8".data }

/-- A table carrying only an already-normalized charset and no headers. -/
def cexTableC2 : TableIn := { charset := some "utf-8".data }

/-- The plural entry of the spec example. -/
def catEntry : TransEntry :=
  { msgid := some "cat".data, msgid_plural := some "cats".data,
    msgstr := .arr ["1 cat".data, "%d cats".data] }

/-- A table with an explicit unnormalized charset and a content-type header
that already carries a charset parameter. -/
def witTableC1 : Table :=
  ⟨some "UTF8".data, [("content-type".data, "text/x; charset=latin1".data)], []⟩

/-- The table the default compile writes back. -/
def postTableDefault : Table :=
  ⟨some "utf-8".data, [("content-type".data, "text/plain; charset=utf-8".data)], []⟩

/-- The text of the default compile output: just the synthesized header
block. -/
def defaultOutputText : Str :=
  "msgid \"\"\nmsgstr \"content-type: text/plain; charset=utf-8\"".data

/-- A plural entry with an empty `msgstr` array. -/
def pluralEmptyEntry : TransEntry :=
  { msgid := some "cat".data, msgid_plural := some "cats".data, msgstr := .arr [] }

/-- The entry with msgid `a`. -/
def entA : TransEntry := { msgid := some "a".data, msgstr := .str "A".data }

/-- The entry with msgid `b`. -/
def entB : TransEntry := { msgid := some "b".data, msgstr := .str "B".data }

/-- A two-entry table inserted in reverse msgid order, with a header
pseudo-entry. -/
def witTableBA : TableIn :=
  { translations := some
      [([], CtxVal.obj
        [([], .ent { msgstr := .str "h".data }),
         ("b".data, .ent entB),
         ("a".data, .ent entA)])] }

theorem foldLineGo_nil (w fuel : Nat) : foldLineGo w fuel [] = [] := by
  cases fuel <;> rfl

theorem pieceLen_of_le (w : Nat) (l : Str) (h : l.length ≤ w) :
    pieceLen w l = l.length := by
  unfold pieceLen
  rw [if_pos h]

theorem pieceLen_pos (w : Nat) (l : Str) (h : l ≠ []) : 0 < pieceLen w l := by
  unfold pieceLen
  split
  · exact List.length_pos.mpr h
  · exact lt_of_lt_of_le one_pos (le_max_left _ _)

theorem lastSpace_lt (chunk : Str) (i : Nat)
    (h : (((chunk.enum.filter fun p => p.2.isWhitespace).map Prod.fst).getLast?) = some i) :
    i < chunk.length := by
  have hmem : i ∈ ((chunk.enum.filter fun p => p.2.isWhitespace).map Prod.fst) := by
    rcases List.mem_getLast?_eq_getLast (Option.mem_def.mpr h) with ⟨hne, heq⟩
    rw [heq]
    exact List.getLast_mem hne
  rcases List.mem_map.mp hmem with ⟨p, hp, rfl⟩
  have hpe : p ∈ chunk.enum := (List.mem_filter.mp hp).1
  have hget := List.mem_enum_iff_getElem?.mp hpe
  rcases List.getElem?_eq_some.mp hget with ⟨hlt, _⟩
  exact hlt

theorem lastSpaceCut_le (w : Nat) (chunk : Str) (h : chunk.length ≤ w) :
    lastSpaceCut w chunk ≤ w := by
  unfold lastSpaceCut
  split
  · next i hi =>
    have := lastSpace_lt chunk i hi
    omega
  · omega

theorem escGuard_le (l : Str) (cut : Nat) : escGuard l cut ≤ cut := by
  unfold escGuard
  split <;> omega

theorem pieceLen_le (w : Nat) (l : Str) (hw : 1 ≤ w) (h : w < l.length) :
    pieceLen w l ≤ w := by
  unfold pieceLen
  rw [if_neg (by omega)]
  have hlen : (l.take w).length ≤ w := by
    rw [List.length_take]
    omega
  have h1 := lastSpaceCut_le w (l.take w) hlen
  have h2 := escGuard_le l (lastSpaceCut w (l.take w))
  exact Nat.max_le.mpr ⟨hw, by omega⟩

theorem foldLineGo_ne_nil (w fuel : Nat) (l : Str) (hl : l ≠ []) :
    foldLineGo w fuel l ≠ [] := by
  cases fuel <;> cases l <;> simp [foldLineGo] at hl ⊢

theorem foldLineChars_single (w : Nat) (l : Str) (hl : l ≠ []) (hle : l.length ≤ w) :
    foldLineChars w l = [l] := by
  cases l with
  | nil => exact absurd rfl hl
  | cons c cs =>
    show foldLineGo w (c :: cs).length (c :: cs) = [c :: cs]
    rw [List.length_cons]
    show (c :: cs).take (pieceLen w (c :: cs)) ::
        foldLineGo w cs.length ((c :: cs).drop (pieceLen w (c :: cs))) = [c :: cs]
    rw [pieceLen_of_le _ _ hle]
    rw [List.take_length, List.drop_length, foldLineGo_nil]

theorem foldLineGo_flatten (w : Nat) :
    ∀ (fuel : Nat) (l : Str), l.length ≤ fuel → (foldLineGo w fuel l).flatten = l := by
  intro fuel
  induction fuel with
  | zero =>
    intro l h
    cases l with
    | nil => rfl
    | cons c cs => simp at h
  | succ n ih =>
    intro l h
    cases l with
    | nil => rfl
    | cons c cs =>
      show ((c :: cs).take (pieceLen w (c :: cs)) ::
          foldLineGo w n ((c :: cs).drop (pieceLen w (c :: cs)))).flatten = c :: cs
      rw [List.flatten_cons]
      have hpp := pieceLen_pos w (c :: cs) (List.cons_ne_nil _ _)
      have hdl : ((c :: cs).drop (pieceLen w (c :: cs))).length ≤ n := by
        rw [List.length_drop, List.length_cons]
        rw [List.length_cons] at h
        omega
      rw [ih _ hdl]
      exact List.take_append_drop _ _

/-- The spec property that folding loses nothing: the folded pieces
concatenate back to the original text. -/
theorem foldLine_flatten (text : Str) (w : Int) : (foldLine text w).flatten = text := by
  unfold foldLine
  split
  · simp
  · exact foldLineGo_flatten _ _ _ (le_refl _)

theorem foldLineChars_two (w : Nat) (l : Str) (hw : 1 ≤ w) (h : w < l.length) :
    2 ≤ (foldLineChars w l).length := by
  cases l with
  | nil => simp at h
  | cons c cs =>
    have hple := pieceLen_le w (c :: cs) hw h
    show 2 ≤ (foldLineGo w (c :: cs).length (c :: cs)).length
    rw [List.length_cons]
    show 2 ≤ ((c :: cs).take (pieceLen w (c :: cs)) ::
        foldLineGo w cs.length ((c :: cs).drop (pieceLen w (c :: cs)))).length
    rw [List.length_cons]
    have hdrop : (c :: cs).drop (pieceLen w (c :: cs)) ≠ [] := by
      have hld : ((c :: cs).drop (pieceLen w (c :: cs))).length =
          (c :: cs).length - pieceLen w (c :: cs) := List.length_drop _ _
      intro hnil
      rw [hnil] at hld
      rw [List.length_cons] at hld
      simp only [List.length_nil] at hld
      rw [List.length_cons] at h
      omega
    have hne := foldLineGo_ne_nil w cs.length ((c :: cs).drop (pieceLen w (c :: cs))) hdrop
    have hlen : 1 ≤ (foldLineGo w cs.length ((c :: cs).drop (pieceLen w (c :: cs)))).length :=
      List.length_pos.mpr hne
    omega

theorem replaceChar_append (c : Char) (rep : Str) (a b : Str) :
    replaceChar c rep (a ++ b) = replaceChar c rep a ++ replaceChar c rep b := by
  simp [replaceChar]

theorem escapeStringSeq_append (a b : Str) :
    escapeStringSeq (a ++ b) = escapeStringSeq a ++ escapeStringSeq b := by
  simp [escapeStringSeq, replaceChar_append]

theorem replaceChar_single_ne (c : Char) (rep : Str) (x : Char) (h : x ≠ c) :
    replaceChar c rep [x] = [x] := by
  simp [replaceChar, h]

theorem escapeChar_eq_seq (x : Char) : escapeChar x = escapeStringSeq [x] := by
  by_cases h1 : x = '\\'
  · subst h1
    decide
  · by_cases h2 : x = '"'
    · subst h2
      decide
    · by_cases h3 : x = '\t'
      · subst h3
        decide
      · by_cases h4 : x = '\r'
        · subst h4
          decide
        · by_cases h5 : x = '\n'
          · subst h5
            decide
          · rw [show escapeChar x = [x] by
              unfold escapeChar
              rw [if_neg h1, if_neg h2, if_neg h3, if_neg h4, if_neg h5]]
            unfold escapeStringSeq
            rw [replaceChar_single_ne _ _ _ h1, replaceChar_single_ne _ _ _ h2,
              replaceChar_single_ne _ _ _ h3, replaceChar_single_ne _ _ _ h4,
              replaceChar_single_ne _ _ _ h5]

theorem escapeString_eq_seq (s : Str) : escapeString s = escapeStringSeq s := by
  induction s with
  | nil => rfl
  | cons x xs ih =>
    have hx : escapeString (x :: xs) = escapeChar x ++ escapeString xs := by
      simp [escapeString]
    have hseq : escapeStringSeq (x :: xs) = escapeStringSeq [x] ++ escapeStringSeq xs := by
      have : (x :: xs : Str) = [x] ++ xs := rfl
      rw [this, escapeStringSeq_append]
    rw [hx, hseq, ih, escapeChar_eq_seq]

/-- C6: rendering of a key/value pair.  When `foldLength > 0` and the escaped
value is longer than `foldLength`, the output is the line `key ""` followed by
one quoted line per folded piece (there are at least two pieces); otherwise —
short value or non-positive `foldLength` — the output is the single line
`key "value"` built from the escaped value, with no folding applied. -/
theorem C6_addPOString_folding (fl : Int) (key value : Str) :
    (0 < fl → fl.toNat < (escapeString value).length →
      addPOString fl key value =
        key ++ " \"\"\n\"".data ++
          List.intercalate "\"\n\"".data (foldLine (escapeString value) fl) ++ "\"".data ∧
      2 ≤ (foldLine (escapeString value) fl).length) ∧
    (fl ≤ 0 ∨ (escapeString value).length ≤ fl.toNat →
      addPOString fl key value = key ++ " \"".data ++ escapeString value ++ "\"".data) := by
  constructor
  · intro hfl hlong
    have hw : 1 ≤ fl.toNat := by omega
    have hfold : foldLine (escapeString value) fl = foldLineChars fl.toNat (escapeString value) := by
      unfold foldLine
      rw [if_neg (by omega)]
    have h2 : 2 ≤ (foldLine (escapeString value) fl).length := by
      rw [hfold]
      exact foldLineChars_two _ _ hw hlong
    refine ⟨?_, h2⟩
    simp only [addPOString]
    rw [if_pos (by omega : fl > 0)]
    rw [if_neg (by omega)]
  · intro hshort
    simp only [addPOString]
    rcases hshort with hfl | hlen
    · rw [if_neg (by omega : ¬ fl > 0)]
      simp
    · by_cases hfl : fl > 0
      · rw [if_pos hfl]
        by_cases hnil : escapeString value = []
        · have hfd : foldLine (escapeString value) fl = [] := by
            unfold foldLine
            rw [if_neg (by omega), hnil]
            exact rfl
          rw [hfd]
          simp [hnil]
        · have hfd : foldLine (escapeString value) fl = [escapeString value] := by
            unfold foldLine
            rw [if_neg (by omega)]
            exact foldLineChars_single _ _ hnil hlen
          rw [hfd]
          simp
      · rw [if_neg hfl]
        simp

/-- Witness for C6 at concrete inputs: folding kicks in for a 3-character
escaped value at fold length 2, and is skipped at fold length 0. -/
theorem C6_witness :
    addPOString 2 "k".data "aaa".data =
      "k".data ++ " \"\"\n\"".data ++
        List.intercalate "\"\n\"".data (foldLine (escapeString "aaa".data) 2) ++ "\"".data ∧
    addPOString 0 "k".data "aaa".data =
      "k".data ++ " \"".data ++ escapeString "aaa".data ++ "\"".data :=
  ⟨((C6_addPOString_folding 2 "k".data "aaa".data).1 (by decide) (by decide)).1,
   (C6_addPOString_folding 0 "k".data "aaa".data).2 (Or.inl (by decide))⟩

/-- C7: the escaping of `_addPOString` is exactly the source's sequence of
five global replacements, which maps backslash, double quote, tab, carriage
return and newline to their two-character escape sequences and leaves every
other character alone; consequently the spec example msgstr value compiles
to exactly the escaped PO line. -/
theorem C7_escape_roundtrip :
    (∀ s, escapeString s = escapeStringSeq s) ∧
    (escapeChar '\\' = "\\\\".data ∧ escapeChar '"' = "\\\"".data ∧
     escapeChar '\t' = "\\t".data ∧ escapeChar '\r' = "\\r".data ∧
     escapeChar '\n' = "\\n".data ∧
     ∀ c : Char, c ∉ (['\\', '"', '\t', '\r', '\n'] : List Char) → escapeChar c = [c]) ∧
    addPOString 76 "msgstr".data "line one\nline two\t\"quoted\"".data =
      "msgstr \"line one\\nline two\\t\\\"quoted\\\"\"".data := by
  refine ⟨escapeString_eq_seq,
    ⟨by decide, by decide, by decide, by decide, by decide, ?_⟩, by decide⟩
  intro c hc
  simp only [List.mem_cons, not_or] at hc
  unfold escapeChar
  rw [if_neg hc.1, if_neg hc.2.1, if_neg hc.2.2.1, if_neg hc.2.2.2.1, if_neg hc.2.2.2.2.1]

/-- Witness for C7: an uninvolved character is left unescaped. -/
theorem C7_witness : escapeChar 'x' = ['x'] :=
  C7_escape_roundtrip.2.1.2.2.2.2.2 'x' (by decide)

/-! Charset-resolution lemmas. -/

theorem charsetStep_charset (a1 : Option Str) (a2 : List Str) (p : Str)
    (hk : strToLower (paramKey p) = "charset".data) :
    charsetStep (a1, a2) p =
      (some (a1.getD (resolveParamCharset p)),
       a2 ++ ["charset=".data ++ a1.getD (resolveParamCharset p)]) := by
  cases a1 <;> simp [charsetStep, hk]

theorem charsetStep_other (a1 : Option Str) (a2 : List Str) (p : Str)
    (hk : ¬ strToLower (paramKey p) = "charset".data) :
    charsetStep (a1, a2) p = (a1, a2 ++ [p]) := by
  simp [charsetStep, hk]

theorem foldl_charsetStep_some (c : Str) (ps parts : List Str) :
    parts.foldl charsetStep (some c, ps) = (some c, ps ++ parts.map (rewriteParam c)) := by
  induction parts generalizing ps with
  | nil => simp
  | cons p rest ih =>
    rw [List.foldl_cons]
    by_cases hk : strToLower (paramKey p) = "charset".data
    · rw [charsetStep_charset _ _ _ hk]
      simp only [Option.getD_some]
      rw [ih]
      simp [rewriteParam, hk]
    · rw [charsetStep_other _ _ _ hk, ih]
      simp [rewriteParam, hk]

theorem foldl_charsetStep_none_fst (ps parts : List Str) :
    (parts.foldl charsetStep (none, ps)).1 =
      (firstCharsetPart parts).map resolveParamCharset := by
  induction parts generalizing ps with
  | nil => rfl
  | cons p rest ih =>
    rw [List.foldl_cons]
    by_cases hk : strToLower (paramKey p) = "charset".data
    · rw [charsetStep_charset _ _ _ hk]
      simp only [Option.getD_none]
      rw [foldl_charsetStep_some]
      simp [firstCharsetPart, hk]
    · rw [charsetStep_other _ _ _ hk, ih]
      simp [firstCharsetPart, hk]

theorem foldl_charsetStep_none_params (ps parts : List Str)
    (hq : firstCharsetPart parts = none) :
    (parts.foldl charsetStep (none, ps)).2 = ps ++ parts := by
  induction parts generalizing ps with
  | nil => simp
  | cons p rest ih =>
    unfold firstCharsetPart at hq
    by_cases hk : strToLower (paramKey p) = "charset".data
    · rw [if_pos hk] at hq
      exact absurd hq (by simp)
    · rw [if_neg hk] at hq
      rw [List.foldl_cons, charsetStep_other _ _ _ hk, ih _ hq]
      simp

theorem firstCharsetPart_mem (parts : List Str) (q : Str)
    (h : firstCharsetPart parts = some q) :
    q ∈ parts ∧ strToLower (paramKey q) = "charset".data := by
  induction parts with
  | nil => simp [firstCharsetPart] at h
  | cons p rest ih =>
    unfold firstCharsetPart at h
    by_cases hk : strToLower (paramKey p) = "charset".data
    · rw [if_pos hk] at h
      obtain rfl := Option.some.inj h
      exact ⟨List.mem_cons_self _ _, hk⟩
    · rw [if_neg hk] at h
      rcases ih h with ⟨hm, hq⟩
      exact ⟨List.mem_cons_of_mem _ hm, hq⟩

theorem mem_params_none (ps parts : List Str) (q : Str)
    (hq : firstCharsetPart parts = some q) :
    ("charset=".data ++ resolveParamCharset q) ∈ (parts.foldl charsetStep (none, ps)).2 := by
  induction parts generalizing ps with
  | nil => simp [firstCharsetPart] at hq
  | cons p rest ih =>
    rw [List.foldl_cons]
    by_cases hk : strToLower (paramKey p) = "charset".data
    · unfold firstCharsetPart at hq
      rw [if_pos hk] at hq
      obtain rfl := Option.some.inj hq
      rw [charsetStep_charset _ _ _ hk]
      simp only [Option.getD_none]
      rw [foldl_charsetStep_some]
      show _ ∈ (ps ++ ["charset=".data ++ resolveParamCharset p]) ++ _
      exact List.mem_append_left _ (List.mem_append_right _ (List.mem_singleton.mpr rfl))
    · unfold firstCharsetPart at hq
      rw [if_neg hk] at hq
      rw [charsetStep_other _ _ _ hk]
      exact ih _ hq

theorem formatCharset_none_jsTruthy (o : Option Str) (h : formatCharset o = none) :
    jsTruthy o = none := by
  cases o with
  | none => rfl
  | some s =>
    simp only [formatCharset] at h
    by_cases hs : s = []
    · simp [jsTruthy, hs]
    · rw [if_neg hs] at h
      exact absurd h (by simp)

theorem resolveCharset_of_some (t : Table) (c : Str)
    (hc : formatCharset t.charset = some c) :
    resolveCharset t = (c, (ctSplit t).tail.map (rewriteParam c)) := by
  unfold resolveCharset
  rw [hc, foldl_charsetStep_some]
  rfl

theorem resolveCharset_of_param (t : Table) (q : Str)
    (hc : formatCharset t.charset = none)
    (hq : firstCharsetPart (ctSplit t).tail = some q) :
    (resolveCharset t).1 = resolveParamCharset q ∧
    ("charset=".data ++ resolveParamCharset q) ∈ (resolveCharset t).2 := by
  rcases hr : (ctSplit t).tail.foldl charsetStep (none, []) with ⟨a, ps⟩
  have hfst := foldl_charsetStep_none_fst [] (ctSplit t).tail
  rw [hq, hr] at hfst
  have ha : a = some (resolveParamCharset q) := hfst
  subst ha
  have hm := mem_params_none [] (ctSplit t).tail q hq
  rw [hr] at hm
  unfold resolveCharset
  rw [hc, hr]
  exact ⟨rfl, hm⟩

theorem resolveCharset_of_neither (t : Table)
    (hc : formatCharset t.charset = none)
    (hq : firstCharsetPart (ctSplit t).tail = none) :
    resolveCharset t = ("utf-8".data, (ctSplit t).tail ++ ["charset=".data ++ "utf-8".data]) := by
  rcases hr : (ctSplit t).tail.foldl charsetStep (none, []) with ⟨a, ps⟩
  have hfst := foldl_charsetStep_none_fst [] (ctSplit t).tail
  rw [hq, hr] at hfst
  have ha : a = none := hfst
  subst ha
  have hps : ps = [] ++ (ctSplit t).tail := by
    have hp2 := foldl_charsetStep_none_params [] (ctSplit t).tail hq
    rw [hr] at hp2
    exact hp2
  unfold resolveCharset
  rw [hc, hr, formatCharset_none_jsTruthy _ hc, hps]
  rfl

theorem map_rewriteParam_id (c : Str) (parts : List Str)
    (hq : firstCharsetPart parts = none) :
    parts.map (rewriteParam c) = parts := by
  induction parts with
  | nil => rfl
  | cons p rest ih =>
    unfold firstCharsetPart at hq
    by_cases hk : strToLower (paramKey p) = "charset".data
    · rw [if_pos hk] at hq
      exact absurd hq (by simp)
    · rw [if_neg hk] at hq
      rw [List.map_cons, ih hq]
      unfold rewriteParam
      rw [if_neg hk]

theorem lookupA_setA (k v : Str) (l : List (Str × Str)) :
    lookupA k (setA k v l) = some v := by
  induction l with
  | nil => simp [setA, lookupA]
  | cons p rest ih =>
    unfold setA
    by_cases hp : p.1 = k
    · rw [if_pos hp]
      simp [lookupA]
    · rw [if_neg hp]
      simp [lookupA, hp, ih]

theorem lookupA_setA_ne (k k2 v : Str) (l : List (Str × Str)) (h : k2 ≠ k) :
    lookupA k2 (setA k v l) = lookupA k2 l := by
  induction l with
  | nil =>
    show lookupA k2 [(k, v)] = lookupA k2 []
    unfold lookupA
    rw [if_neg (show ¬ (k, v).1 = k2 from Ne.symm h)]
    rfl
  | cons p rest ih =>
    unfold setA
    by_cases hp : p.1 = k
    · rw [if_pos hp]
      unfold lookupA
      rw [if_neg (show ¬ (k, v).1 = k2 from Ne.symm h),
        if_neg (show ¬ p.1 = k2 by rw [hp]; exact Ne.symm h)]
    · rw [if_neg hp]
      unfold lookupA
      by_cases hp2 : p.1 = k2
      · rw [if_pos hp2, if_pos hp2]
      · rw [if_neg hp2, if_neg hp2]
        exact ih

/-- C1 (amended): the charset used for the output is resolved in the claimed
order — a set (non-empty) table charset wins in normalized form; otherwise
the first `charset=` parameter of the content-type header wins in normalized
form (with `utf-8` substituted for an empty value); otherwise `utf-8` is
used.  However, a winning table charset only replaces an existing `charset=`
parameter: when the header had no such parameter it is not injected, and the
rewritten header consists exactly of the original parameters. -/
theorem C1_charset_resolution (t : Table) :
    (handleCharset t).2 = charsetResolutionSpec t ∧
    (handleCharset t).1.headers = setA "content-type".data
      ((ctSplit t).headD [] ++ "; ".data ++
        List.intercalate "; ".data (resolveCharset t).2) t.headers ∧
    (∀ c, formatCharset t.charset = some c →
      (resolveCharset t).2 = (ctSplit t).tail.map (rewriteParam c) ∧
      (firstCharsetPart (ctSplit t).tail = none →
        (resolveCharset t).2 = (ctSplit t).tail)) := by
  refine ⟨?_, rfl, ?_⟩
  · show (resolveCharset t).1 = charsetResolutionSpec t
    unfold charsetResolutionSpec
    cases hc : formatCharset t.charset with
    | some c => rw [resolveCharset_of_some t c hc]
    | none =>
      cases hq : firstCharsetPart (ctSplit t).tail with
      | some q => exact (resolveCharset_of_param t q hc hq).1
      | none => rw [resolveCharset_of_neither t hc hq]
  · intro c hc
    refine ⟨by rw [resolveCharset_of_some t c hc], ?_⟩
    intro hq
    rw [resolveCharset_of_some t c hc]
    exact map_rewriteParam_id c _ hq

/-- Counterexample to C1 as stated: a table with `charset` set and no
existing charset parameter; the resolved charset is `utf-8`, but nothing is
injected into the content-type header. -/
theorem C1_counterexample :
    ((compilepo (some cexTableC1) none).toOption.map fun p => p.2.headers) =
      some [("content-type".data, "text/plain; ".data)] ∧
    ((compilepo (some cexTableC1) none).toOption.map fun p => p.2.charset) =
      some (some "utf-8".data) ∧
    ¬ ("charset".data <:+: "text/plain; ".data) := by decide

/-- Witness for C1: with the table charset set, the existing charset
parameter is rewritten to the normalized table charset. -/
theorem C1_witness : (resolveCharset witTableC1).2 = ["charset=utf-8".data] := by
  have h := ((C1_charset_resolution witTableC1).2.2 "utf-8".data (by decide)).1
  rw [h]
  decide

/-- C2 (amended): whenever the original content-type header carries a
`charset=` parameter, or the table has no (truthy) charset of its own, the
rewritten content-type header value contains the parameter `charset=<c>`
where `<c>` is the resolved charset, and the table charset field is set to
the resolved charset.  (When the table charset is set and the header had no
charset parameter, the emitted header carries no such parameter — see the
counterexample.) -/
theorem C2_header_sync (t : Table)
    (h : firstCharsetPart (ctSplit t).tail ≠ none ∨ formatCharset t.charset = none) :
    ("charset=".data ++ (resolveCharset t).1) ∈ (resolveCharset t).2 ∧
    lookupA "content-type".data (handleCharset t).1.headers =
      some ((ctSplit t).headD [] ++ "; ".data ++
        List.intercalate "; ".data (resolveCharset t).2) ∧
    (handleCharset t).1.charset = some ((handleCharset t).2) := by
  refine ⟨?_, lookupA_setA _ _ _, rfl⟩
  cases hc : formatCharset t.charset with
  | some c =>
    have hqne : firstCharsetPart (ctSplit t).tail ≠ none := by
      rcases h with h | h
      · exact h
      · rw [hc] at h
        exact absurd h (by simp)
    obtain ⟨q, hq⟩ := Option.ne_none_iff_exists'.mp hqne
    rw [resolveCharset_of_some t c hc]
    rcases firstCharsetPart_mem _ q hq with ⟨hm, hk⟩
    refine List.mem_map.mpr ⟨q, hm, ?_⟩
    simp [rewriteParam, hk]
  | none =>
    cases hq : firstCharsetPart (ctSplit t).tail with
    | some q =>
      rcases resolveCharset_of_param t q hc hq with ⟨h1, h2⟩
      rw [h1]
      exact h2
    | none =>
      rw [resolveCharset_of_neither t hc hq]
      simp

/-- Counterexample to C2 as stated: a table with `charset = "utf-8"` and no
content-type header compiles to a content-type header with no `charset=`
parameter at all. -/
theorem C2_counterexample :
    ((compilepo (some cexTableC2) none).toOption.map fun p => p.2.headers) =
      some [("content-type".data, "text/plain; ".data)] ∧
    ((compilepo (some cexTableC2) none).toOption.map fun p => p.2.charset) =
      some (some "utf-8".data) ∧
    ¬ ("charset=utf-8".data <:+: "text/plain; ".data) := by decide

/-- Witness for C2: the empty table resolves to `utf-8` and the parameter is
appended. -/
theorem C2_witness :
    ("charset=".data ++ (resolveCharset (initTable none)).1) ∈
      (resolveCharset (initTable none)).2 :=
  (C2_header_sync (initTable none) (Or.inr (by decide))).1

/-- C3 (amended): a successful compile returns the post-table of
`_handleCharset`: the input table is mutated — its charset field receives
the resolved charset and its content-type header entry is rewritten — while
its translations and every other header key are untouched; the output is a
function of table and options alone (no state shared across calls). -/
theorem C3_mutation_frame (tIn : Option TableIn) (oIn : Option OptionsIn)
    (out : Output) (t2 : Table) (h : compilepo tIn oIn = .ok (out, t2)) :
    t2 = (handleCharset (initTable tIn)).1 ∧
    t2.translations = (initTable tIn).translations ∧
    t2.charset = some ((handleCharset (initTable tIn)).2) ∧
    ∀ k, k ≠ "content-type".data →
      lookupA k t2.headers = lookupA k (initTable tIn).headers := by
  have ht2 : t2 = (handleCharset (initTable tIn)).1 := by
    simp only [compilepo] at h
    cases hcol : collectEntries ((handleCharset (initTable tIn)).1).translations with
    | error e =>
      rw [hcol] at h
      simp at h
    | ok entries =>
      rw [hcol] at h
      simp only [Except.ok.injEq, Prod.mk.injEq] at h
      exact h.2.symm
  refine ⟨ht2, ?_, ?_, ?_⟩
  · rw [ht2]
    rfl
  · rw [ht2]
    rfl
  · intro k hk
    rw [ht2]
    exact lookupA_setA_ne _ _ _ _ hk

/-- Counterexample to C3 as stated: compiling the empty table writes the
resolved charset into the caller's table. -/
theorem C3_counterexample :
    ((compilepo (some {}) none).toOption.map fun p => p.2.charset) =
      some (some "utf-8".data) ∧
    ({} : TableIn).charset = none := by decide

/-- Witness for C3 at the concrete empty table. -/
theorem C3_witness :
    postTableDefault.translations = (initTable (some {})).translations ∧
    postTableDefault.charset = some ((handleCharset (initTable (some {}))).2) := by
  have h := C3_mutation_frame (some {}) none (Output.utf8 defaultOutputText)
    postTableDefault (by decide)
  exact ⟨h.2.1, h.2.2.1⟩

/-! Sorting lemmas. -/

theorem insertCmp_perm (f : TransEntry → TransEntry → Int) (x : TransEntry)
    (ys : List TransEntry) : (insertCmp f x ys).Perm (x :: ys) := by
  induction ys with
  | nil => exact List.Perm.refl _
  | cons y ys ih =>
    unfold insertCmp
    by_cases hf : f x y < 0
    · rw [if_pos hf]
    · rw [if_neg hf]
      exact (ih.cons y).trans (List.Perm.swap x y ys)

theorem sortByCmp_perm (f : TransEntry → TransEntry → Int) (l : List TransEntry) :
    (sortByCmp f l).Perm l := by
  have main : ∀ (l acc : List TransEntry),
      (l.foldl (fun acc x => insertCmp f x acc) acc).Perm (acc ++ l) := by
    intro l
    induction l with
    | nil => intro acc; simp
    | cons x xs ih =>
      intro acc
      rw [List.foldl_cons]
      refine (ih (insertCmp f x acc)).trans ?_
      refine (((insertCmp_perm f x acc).append_right xs)).trans ?_
      exact List.perm_middle.symm
  simpa using main l []

theorem mem_insertCmp (f : TransEntry → TransEntry → Int) (x : TransEntry)
    (ys : List TransEntry) (z : TransEntry) (hz : z ∈ insertCmp f x ys) :
    z = x ∨ z ∈ ys := by
  have := (insertCmp_perm f x ys).mem_iff.mp hz
  simpa using this

theorem insertCmp_pairwise (f : TransEntry → TransEntry → Int)
    (hc : ∀ a b, 0 ≤ f a b → f b a ≤ 0)
    (hstep : ∀ a b c, f a b < 0 → f b c ≤ 0 → f a c ≤ 0)
    (x : TransEntry) (ys : List TransEntry)
    (hp : ys.Pairwise fun a b => f a b ≤ 0) :
    (insertCmp f x ys).Pairwise fun a b => f a b ≤ 0 := by
  induction ys with
  | nil => simp [insertCmp]
  | cons y ys ih =>
    rw [List.pairwise_cons] at hp
    obtain ⟨hy, hys⟩ := hp
    unfold insertCmp
    by_cases hf : f x y < 0
    · rw [if_pos hf]
      rw [List.pairwise_cons]
      constructor
      · intro z hz
        rcases List.mem_cons.mp hz with rfl | hz
        · exact le_of_lt hf
        · exact hstep x y z hf (hy z hz)
      · rw [List.pairwise_cons]
        exact ⟨hy, hys⟩
    · rw [if_neg hf]
      rw [List.pairwise_cons]
      constructor
      · intro z hz
        rcases mem_insertCmp f x ys z hz with hzx | hz
        · rw [hzx]
          exact hc x y (by omega)
        · exact hy z hz
      · exact ih hys

theorem sortByCmp_pairwise (f : TransEntry → TransEntry → Int)
    (hc : ∀ a b, 0 ≤ f a b → f b a ≤ 0)
    (hstep : ∀ a b c, f a b < 0 → f b c ≤ 0 → f a c ≤ 0)
    (l : List TransEntry) :
    (sortByCmp f l).Pairwise fun a b => f a b ≤ 0 := by
  have main : ∀ (l acc : List TransEntry), (acc.Pairwise fun a b => f a b ≤ 0) →
      ((l.foldl (fun acc x => insertCmp f x acc) acc).Pairwise fun a b => f a b ≤ 0) := by
    intro l
    induction l with
    | nil => intro acc h; exact h
    | cons x xs ih =>
      intro acc h
      rw [List.foldl_cons]
      exact ih _ (insertCmp_pairwise f hc hstep x acc h)
  exact main l [] List.Pairwise.nil

/-! Lexicographic-comparison lemmas for the default comparator. -/

theorem ltb_asymm : ∀ (a b : Str), ltb a b = true → ltb b a = false := by
  intro a
  induction a with
  | nil =>
    intro b h
    cases b with
    | nil => simp [ltb] at h
    | cons y ys => simp [ltb]
  | cons x xs ih =>
    intro b h
    cases b with
    | nil => simp [ltb] at h
    | cons y ys =>
      unfold ltb at h ⊢
      by_cases hxy : x < y
      · rw [if_neg (lt_asymm hxy), if_pos hxy]
      · rw [if_neg hxy] at h
        by_cases hyx : y < x
        · rw [if_pos hyx] at h
          exact absurd h (by simp)
        · rw [if_neg hyx] at h
          rw [if_neg hyx, if_neg hxy]
          exact ih ys h

theorem ltb_trans : ∀ (a b c : Str), ltb a b = true → ltb b c = true → ltb a c = true := by
  intro a
  induction a with
  | nil =>
    intro b c hab hbc
    cases b with
    | nil => simp [ltb] at hab
    | cons y ys =>
      cases c with
      | nil => simp [ltb] at hbc
      | cons z zs => simp [ltb]
  | cons x xs ih =>
    intro b c hab hbc
    cases b with
    | nil => simp [ltb] at hab
    | cons y ys =>
      cases c with
      | nil => simp [ltb] at hbc
      | cons z zs =>
        unfold ltb at hab hbc ⊢
        by_cases hxy : x < y
        · by_cases hyz : y < z
          · rw [if_pos (lt_trans hxy hyz)]
          · rw [if_neg hyz] at hbc
            by_cases hzy : z < y
            · rw [if_pos hzy] at hbc
              exact absurd hbc (by simp)
            · have hzeq : z = y := le_antisymm (not_lt.mp hyz) (not_lt.mp hzy)
              subst hzeq
              rw [if_pos hxy]
        · rw [if_neg hxy] at hab
          by_cases hyx : y < x
          · rw [if_pos hyx] at hab
            exact absurd hab (by simp)
          · rw [if_neg hyx] at hab
            have hxeq : x = y := le_antisymm (not_lt.mp hyx) (not_lt.mp hxy)
            subst hxeq
            by_cases hxz : x < z
            · rw [if_pos hxz]
            · rw [if_neg hxz] at hbc ⊢
              by_cases hzx : z < x
              · rw [if_pos hzx] at hbc
                exact absurd hbc (by simp)
              · rw [if_neg hzx] at hbc ⊢
                exact ih ys zs hab hbc

theorem jsGT_asymm (a b : Option Str) (h : jsGT a b = true) : jsGT b a = false := by
  cases a with
  | none => simp [jsGT] at h
  | some s =>
    cases b with
    | none => simp [jsGT] at h
    | some t =>
      simp only [jsGT] at h ⊢
      exact ltb_asymm _ _ h

theorem compare_hc (a b : TransEntry) (h : 0 ≤ compare a b) : compare b a ≤ 0 := by
  unfold compare at h ⊢
  cases h1 : jsGT a.msgid b.msgid with
  | true =>
    have h2 := jsGT_asymm _ _ h1
    rw [h2]
    simp
  | false =>
    cases h2 : jsGT b.msgid a.msgid with
    | true =>
      rw [h1, h2] at h
      simp at h
    | false =>
      simp

theorem compare_hstep (a b c : TransEntry) (h1 : compare a b < 0)
    (h2 : compare b c ≤ 0) : compare a c ≤ 0 := by
  unfold compare at h1 h2 ⊢
  cases hab : jsGT a.msgid b.msgid with
  | true =>
    rw [hab] at h1
    simp at h1
  | false =>
    cases hba : jsGT b.msgid a.msgid with
    | false =>
      rw [hab, hba] at h1
      simp at h1
    | true =>
      cases hbc : jsGT b.msgid c.msgid with
      | true =>
        rw [hbc] at h2
        simp at h2
      | false =>
        cases hac : jsGT a.msgid c.msgid with
        | false =>
          cases hca : jsGT c.msgid a.msgid <;> simp
        | true =>
          exfalso
          cases ha : a.msgid with
          | none =>
            rw [ha] at hac
            simp [jsGT] at hac
          | some a2 =>
            cases hb : b.msgid with
            | none =>
              rw [ha, hb] at hba
              simp [jsGT] at hba
            | some b2 =>
              cases hcm : c.msgid with
              | none =>
                rw [ha, hcm] at hac
                simp [jsGT] at hac
              | some c2 =>
                rw [ha, hb] at hba
                rw [ha, hcm] at hac
                rw [hb, hcm] at hbc
                simp only [jsGT] at hba hac hbc
                rw [ltb_trans c2 a2 b2 hac hba] at hbc
                simp at hbc

/-- The equality used everywhere below: a successful entry collection makes
`compile` succeed with the response list `compiledResponse`. -/
theorem compilepo_ok_eq (tIn : Option TableIn) (oIn : Option OptionsIn)
    (entries : List TransEntry)
    (h : collectEntries ((handleCharset (initTable tIn)).1).translations = .ok entries) :
    compilepo tIn oIn = .ok
      (if (handleCharset (initTable tIn)).2 = "utf-8".data ∨
          (handleCharset (initTable tIn)).2 = "ascii".data
        then Output.utf8 (List.intercalate "\n\n".data (compiledResponse tIn oIn entries))
        else Output.converted (List.intercalate "\n\n".data (compiledResponse tIn oIn entries))
          ((handleCharset (initTable tIn)).2),
       (handleCharset (initTable tIn)).1) := by
  simp only [compilepo]
  rw [h]
  rfl

/-- C4: sorting of the compiled entries.  With `sort` a comparator function
(assumed consistent: antisymmetric in sign and transitively coherent), the
entries are a permutation of the collected ones, pairwise ordered by the
comparator; with `sort` a non-function truthy value the default msgid
comparator orders them; with `sort === false` the collected insertion order
is kept unchanged; and the compiled output text renders exactly the sorted
entry list after the header block. -/
theorem C4_sorting :
    (∀ (f : TransEntry → TransEntry → Int) (l : List TransEntry),
      (∀ a b, 0 ≤ f a b → f b a ≤ 0) →
      (∀ a b c, f a b < 0 → f b c ≤ 0 → f a c ≤ 0) →
      ((sortEntries (.fn f) l).Pairwise fun a b => f a b ≤ 0) ∧
        (sortEntries (.fn f) l).Perm l) ∧
    (∀ l : List TransEntry,
      ((sortEntries .on l).Pairwise fun a b => compare a b ≤ 0) ∧
        (sortEntries .on l).Perm l) ∧
    (∀ l : List TransEntry, sortEntries .off l = l) ∧
    (∀ tIn oIn entries,
      collectEntries ((handleCharset (initTable tIn)).1).translations = .ok entries →
      ∃ out, compilepo tIn oIn = .ok (out, (handleCharset (initTable tIn)).1) ∧
        out.text = List.intercalate "\n\n".data (compiledResponse tIn oIn entries)) := by
  refine ⟨?_, ?_, ?_, ?_⟩
  · intro f l hc hstep
    exact ⟨sortByCmp_pairwise f hc hstep l, sortByCmp_perm f l⟩
  · intro l
    exact ⟨sortByCmp_pairwise compare compare_hc compare_hstep l, sortByCmp_perm compare l⟩
  · intro l
    rfl
  · intro tIn oIn entries h
    refine ⟨_, compilepo_ok_eq tIn oIn entries h, ?_⟩
    split <;> rfl

/-- Witness for C4: a trivially consistent comparator on a one-entry list,
and a concrete sorted compile of the reverse-ordered table. -/
theorem C4_witness :
    ((sortEntries (SortOpt.fn fun _ _ => (0 : Int)) [catEntry]).Perm [catEntry]) ∧
    (∃ out, compilepo (some witTableBA) (some { sort := some SortOpt.on }) =
        .ok (out, (handleCharset (initTable (some witTableBA))).1) ∧
      out.text = List.intercalate "\n\n".data
        (compiledResponse (some witTableBA) (some { sort := some SortOpt.on })
          [entB, entA])) := by
  constructor
  · exact (C4_sorting.1 (fun _ _ => 0) [catEntry]
      (fun a b h => by norm_num)
      (fun a b c h1 h2 => absurd h1 (by norm_num))).2
  · exact C4_sorting.2.2.2 (some witTableBA) (some { sort := some SortOpt.on })
      [entB, entA] (by decide)

/-! Entry-collection lemmas. -/

theorem collectCtx_go (c : Str) (es : List (Str × TransVal)) :
    (∀ q ∈ es, q.2 ≠ TransVal.jsNull) →
    ∀ acc, es.foldl (collectCtxStep c) acc = acc ++ (collectSpecCtx c es).map some := by
  induction es with
  | nil =>
    intro _ acc
    simp [collectSpecCtx]
  | cons q rest ih =>
    intro hn acc
    obtain ⟨k, v⟩ := q
    rw [List.foldl_cons]
    cases v with
    | jsNull => exact absurd rfl (hn (k, .jsNull) (List.mem_cons_self _ _))
    | prim =>
      rw [show collectCtxStep c acc (k, .prim) = acc from rfl,
        ih (fun q hq => hn q (List.mem_cons_of_mem _ hq)) acc]
      simp [collectSpecCtx]
    | ent e =>
      rw [show collectCtxStep c acc (k, .ent e) =
            (if c = [] ∧ k = [] then acc else acc ++ [some e]) from rfl]
      by_cases hce : c = [] ∧ k = []
      · rw [if_pos hce, ih (fun q hq => hn q (List.mem_cons_of_mem _ hq)) acc]
        simp [collectSpecCtx, hce]
      · rw [if_neg hce, ih (fun q hq => hn q (List.mem_cons_of_mem _ hq))]
        simp [collectSpecCtx, hce]

theorem collectCtx_eq (c : Str) (es : List (Str × TransVal))
    (hn : ∀ q ∈ es, q.2 ≠ TransVal.jsNull) :
    collectCtx c es = (collectSpecCtx c es).map some := by
  have := collectCtx_go c es hn []
  simpa [collectCtx] using this

theorem collectRaw_ok (tr : List (Str × CtxVal))
    (h1 : ∀ p ∈ tr, p.2 ≠ CtxVal.cnull)
    (h2 : ∀ p ∈ tr, ctxEntryNullFree p.2 = true) :
    collectRaw tr = .ok ((collectSpec tr).map some) := by
  have main : ∀ (tr : List (Str × CtxVal)), (∀ p ∈ tr, p.2 ≠ CtxVal.cnull) →
      (∀ p ∈ tr, ctxEntryNullFree p.2 = true) →
      ∀ acc, tr.foldlM collectStep acc = .ok (acc ++ (collectSpec tr).map some) := by
    intro tr
    induction tr with
    | nil =>
      intro _ _ acc
      simp only [List.foldlM_nil, collectSpec, List.map_nil, List.flatten_nil,
        List.append_nil]
      rfl
    | cons p rest ih =>
      intro h1 h2 acc
      obtain ⟨k, v⟩ := p
      rw [List.foldlM_cons]
      cases v with
      | cnull => exact absurd rfl (h1 (k, .cnull) (List.mem_cons_self _ _))
      | cprim =>
        show rest.foldlM collectStep acc = _
        rw [ih (fun p hp => h1 p (List.mem_cons_of_mem _ hp))
          (fun p hp => h2 p (List.mem_cons_of_mem _ hp)) acc]
        simp [collectSpec]
      | obj es =>
        have hes : ∀ q ∈ es, q.2 ≠ TransVal.jsNull := by
          have hall := h2 (k, .obj es) (List.mem_cons_self _ _)
          simp only [ctxEntryNullFree] at hall
          intro q hq hqn
          have hq2 := List.all_eq_true.mp hall q hq
          rw [hqn] at hq2
          simp at hq2
        show rest.foldlM collectStep (acc ++ collectCtx k es) = _
        rw [ih (fun p hp => h1 p (List.mem_cons_of_mem _ hp))
          (fun p hp => h2 p (List.mem_cons_of_mem _ hp)) (acc ++ collectCtx k es)]
        rw [collectCtx_eq k es hes]
        simp [collectSpec]
  have := main tr h1 h2 []
  simpa [collectRaw] using this

theorem map_some_any_isNone (l : List TransEntry) :
    ((l.map some).any Option.isNone) = false := by
  induction l with
  | nil => rfl
  | cons x xs ih => simp [ih]

theorem filterMap_id_map_some (l : List TransEntry) :
    (l.map some).filterMap id = l := by
  induction l with
  | nil => rfl
  | cons x xs ih => simp [ih]

theorem collectEntries_ok (tr : List (Str × CtxVal))
    (h1 : ∀ p ∈ tr, p.2 ≠ CtxVal.cnull)
    (h2 : ∀ p ∈ tr, ctxEntryNullFree p.2 = true) :
    collectEntries tr = .ok (collectSpec tr) := by
  unfold collectEntries
  rw [collectRaw_ok tr h1 h2]
  show (if ((collectSpec tr).map some).any Option.isNone = true then
      (Except.error "TypeError".data : Except Str (List TransEntry))
    else .ok (((collectSpec tr).map some).filterMap id)) = .ok (collectSpec tr)
  rw [map_some_any_isNone]
  rw [if_neg (by simp)]
  rw [filterMap_id_map_some]

/-- C5: the compiled output is the synthesized header block (the `("", "")`
pseudo-entry with its msgstr overridden by the generated header text) first,
followed by one block per collected entry, joined by exactly one blank line;
and the collection contributes nothing for the `("", "")` key pair while
contributing every other object entry. -/
theorem C5_output_structure :
    (∀ tIn oIn,
      (∀ p ∈ (initTable tIn).translations, p.2 ≠ CtxVal.cnull) →
      (∀ p ∈ (initTable tIn).translations, ctxEntryNullFree p.2 = true) →
      ∃ out, compilepo tIn oIn = .ok (out, (handleCharset (initTable tIn)).1) ∧
        out.text = List.intercalate "\n\n".data
          (compiledResponse tIn oIn (collectSpec (initTable tIn).translations))) ∧
    (∀ e es, collectSpecCtx [] (([], TransVal.ent e) :: es) = collectSpecCtx [] es) ∧
    (∀ c k e es, ¬ (c = [] ∧ k = []) →
      collectSpecCtx c ((k, TransVal.ent e) :: es) = e :: collectSpecCtx c es) := by
  refine ⟨?_, ?_, ?_⟩
  · intro tIn oIn h1 h2
    have hcol : collectEntries ((handleCharset (initTable tIn)).1).translations =
        .ok (collectSpec (initTable tIn).translations) :=
      collectEntries_ok _ h1 h2
    refine ⟨_, compilepo_ok_eq tIn oIn _ hcol, ?_⟩
    split <;> rfl
  · intro e es
    simp [collectSpecCtx]
  · intro c k e es hck
    simp [collectSpecCtx, hck]

/-- Witness for C5 at the concrete two-entry table. -/
theorem C5_witness :
    ∃ out, compilepo (some witTableBA) none =
        .ok (out, (handleCharset (initTable (some witTableBA))).1) ∧
      out.text = List.intercalate "\n\n".data
        (compiledResponse (some witTableBA) none
          (collectSpec (initTable (some witTableBA)).translations)) :=
  C5_output_structure.1 (some witTableBA) none (by decide) (by decide)

/-! Rendering lemmas for degenerate entries. -/

/-- C8: a plural entry renders as its comments (if any), `msgctxt` (if
truthy), `msgid`, `msgid_plural`, then one `msgstr[n]` line per element of
the normalized msgstr array in index order. -/
theorem C8_plural_block (fl : Int) (e : TransEntry) (p : Str)
    (hp : jsTruthy e.msgid_plural = some p) :
    drawBlock fl e none = List.intercalate "\n".data
      (blockHead fl e ++
        (addPOString fl "msgid_plural".data p ::
          (msgstrList none e.msgstr).enum.map fun q =>
            addPOString fl ("msgstr[".data ++ (toString q.1).data ++ "]".data) q.2)) := by
  simp only [drawBlock]
  rw [hp]
  simp [blockHead, commentsPartOf, ctxtPartOf]

/-- Witness for C8: the spec example compiles to the exact four lines. -/
theorem C8_witness :
    drawBlock 76 catEntry none =
      "msgid \"cat\"\nmsgid_plural \"cats\"\nmsgstr[0] \"1 cat\"\nmsgstr[1] \"%d cats\"".data := by
  rw [C8_plural_block 76 catEntry "cats".data (by decide)]
  decide

/-- C10: an entry with truthy `msgid_plural` and an empty `msgstr` array
renders its `msgid_plural` line and zero `msgstr[n]` lines; an entry without
`msgid_plural` renders exactly one `msgstr` line, whose value is the empty
string when `msgstr` is absent. -/
theorem C10_plural_empty (fl : Int) (e : TransEntry) :
    (∀ p, jsTruthy e.msgid_plural = some p → e.msgstr = .arr [] →
      drawBlock fl e none = List.intercalate "\n".data
        (blockHead fl e ++ [addPOString fl "msgid_plural".data p])) ∧
    (jsTruthy e.msgid_plural = none →
      drawBlock fl e none = List.intercalate "\n".data
        (blockHead fl e ++
          [addPOString fl "msgstr".data ((msgstrList none e.msgstr).headD [])]) ∧
      (e.msgstr = .absent → (msgstrList none e.msgstr).headD [] = [])) := by
  constructor
  · intro p hp hmt
    simp only [drawBlock]
    rw [hp, hmt]
    simp [blockHead, commentsPartOf, ctxtPartOf, msgstrList]
  · intro hp
    constructor
    · simp only [drawBlock]
      rw [hp]
      simp [blockHead, commentsPartOf, ctxtPartOf]
    · intro hmt
      rw [hmt]
      rfl

/-- Witness for C10: the concrete plural entry with empty msgstr array. -/
theorem C10_witness :
    drawBlock 76 pluralEmptyEntry none = List.intercalate "\n".data
      (blockHead 76 pluralEmptyEntry ++ [addPOString 76 "msgid_plural".data "cats".data]) :=
  (C10_plural_empty 76 pluralEmptyEntry).1 "cats".data (by decide) (by decide)

end Po
